import Mathlib

/-!
Verification of the `minspan` crate (src/src/lib.rs).

The single exported function is

  pub fn span<A: PartialEq>(query: &Vec<A>, history: &Vec<A>) -> Option<(usize, usize)>

which returns the inclusive index range of the shortest window of `history`
containing `query` as a subsequence.  This file gives a shallow embedding of
that function (state passed explicitly, the Rust `Vec<Option<(usize,usize)>>`
as a `List (Option (Nat × Nat))`, usize arithmetic as `Nat`) together with a
checked variant in which every indexing operation and every subtraction is
guarded, and proves the functional-correctness properties of the algorithm.
-/

namespace minspan

variable {A : Type} [DecidableEq A]

/-- The mutable state of the main loop of `minspan::span` (lib.rs lines 21-22):
the frontier vector `starting_at` and the best complete candidate so far. -/
structure SpanState where
  starting_at : List (Option (Nat × Nat))
  best_complete_solution : Option (Nat × Nat)
  deriving DecidableEq

/-- One iteration of the inner descending loop of `minspan::span`
(lib.rs lines 26-52), at history position `bodyindex` holding `bodychr` and
query position `keyindex`.  Reads out of bounds are given the harmless default
`none`; `spanE` below shows they are in bounds anyway. -/
def matchStep (query : List A) (bodyindex : Nat) (bodychr : A) (keyindex : Nat)
    (s : SpanState) : SpanState :=
  match query[keyindex]? with
  | none => s
  | some keychr =>
    if keychr = bodychr then
      let newval : Option (Nat × Nat) :=
        if keyindex = 0 then some (bodyindex, bodyindex)
        else ((s.starting_at[keyindex - 1]?).getD none).map fun p => (p.1, bodyindex)
      let sa := s.starting_at.set keyindex newval
      let best :=
        if keyindex + 1 = query.length then
          match (sa[keyindex]?).getD none with
          | none => s.best_complete_solution
          | some (f, t) =>
            match s.best_complete_solution with
            | none => some (f, t)
            | some (cf, ct) =>
              some (if t - f < ct - cf then (f, t) else (cf, ct))
        else s.best_complete_solution
      ⟨sa, best⟩
    else s

/-- Runs `f` on the indices `j-1, j-2, ..., 1, 0`: the descending iteration
`query.iter().enumerate().rev()` of lib.rs line 26. -/
def forRev (f : Nat → SpanState → SpanState) : Nat → SpanState → SpanState
  | 0, s => s
  | j + 1, s => forRev f j (f j s)

/-- One iteration of the outer loop of `minspan::span` (lib.rs line 25):
process history element `p.2` at position `p.1`. -/
def bodyStep (query : List A) (s : SpanState) (p : Nat × A) : SpanState :=
  forRev (matchStep query p.1 p.2) query.length s

/-- Shallow embedding of `minspan::span` (lib.rs lines 5-55). -/
def span (query history : List A) : Option (Nat × Nat) :=
  if history.isEmpty then none
  else if query.isEmpty then some (0, 0)
  else
    (List.foldl (bodyStep query) ⟨query.map fun _ => none, none⟩ history.enum).best_complete_solution

/-- The inclusive window `history[f..=t]` as a list. -/
def slice (l : List A) (f t : Nat) : List A := (l.drop f).take (t + 1 - f)

/-! ### A functional model of one round of the inner loop

Because the inner loop of lib.rs line 26 runs over the query positions in
descending order, the read of `starting_at[keyindex - 1]` at line 34 always
sees the value from before the current history position.  A whole round is
therefore a simultaneous update of the frontier, `stepF` below, and the whole
scan is the recurrence `frontier`.  `forRev_matchStep_eq` proves that the
imperative loop implements exactly this recurrence. -/

/-- The simultaneous update of the frontier performed by one round of the
inner loop at history position `n` holding element `h`. -/
def stepF (query : List A) (n : Nat) (h : A) (f : Nat → Option (Nat × Nat))
    (k : Nat) : Option (Nat × Nat) :=
  match query[k]? with
  | some c =>
    if c = h then
      if k = 0 then some (n, n) else (f (k - 1)).map fun p => (p.1, n)
    else f k
  | none => f k

/-- The complete candidate recorded by the round at history position `n`
holding element `h` (lib.rs lines 37-50), as a list of zero or one spans. -/
def stepOffer (query : List A) (n : Nat) (h : A)
    (f : Nat → Option (Nat × Nat)) : List (Nat × Nat) :=
  match query[query.length - 1]? with
  | some c => if c = h then (stepF query n h f (query.length - 1)).toList else []
  | none => []

/-- The value of `starting_at[k]` after the first `n` history elements have
been processed. -/
def frontier (query history : List A) : Nat → Nat → Option (Nat × Nat)
  | 0, _ => none
  | n + 1, k =>
    match history[n]? with
    | some h => stepF query n h (fun j => frontier query history n j) k
    | none => frontier query history n k

/-- All complete candidates recorded during the first `n` history positions,
in order of discovery. -/
def offers (query history : List A) : Nat → List (Nat × Nat)
  | 0 => []
  | n + 1 =>
    offers query history n ++
      match history[n]? with
      | some h => stepOffer query n h (fun j => frontier query history n j)
      | none => []

/-- The update of `best_complete_solution` by one complete candidate
(lib.rs lines 39-48): replace only if strictly shorter. -/
def bestUpdate (best : Option (Nat × Nat)) (c : Nat × Nat) : Option (Nat × Nat) :=
  match best with
  | none => some c
  | some b => some (if c.2 - c.1 < b.2 - b.1 then c else b)

/-- Functional model of `minspan::span`: fold the recorded candidates with the
strictly-shorter replacement policy. -/
def spanModel (query history : List A) : Option (Nat × Nat) :=
  if history.isEmpty then none
  else if query.isEmpty then some (0, 0)
  else (offers query history history.length).foldl bestUpdate none

/-! ### Checked execution

`matchStepE` re-runs one inner iteration with every indexing operation and
every `usize` subtraction guarded: an out-of-bounds index or an underflowing
subtraction — the events on which the Rust code would panic — yields `none`.
`spanE_eq_span` proves that the checked run never fails and agrees with the
unchecked embedding. -/

/-- Rust `usize` subtraction `a - b`, failing on underflow. -/
def checkedSub (a b : Nat) : Option Nat := if b ≤ a then some (a - b) else none

/-- `matchStep` with every index access and subtraction checked: first the
read of `starting_at[keyindex - 1]` (lib.rs line 34), then the write to
`starting_at[keyindex]` (line 30), then the read of `starting_at[keyindex]`
(line 38) and the subtractions `to - from` and `currto - currfrom`
(line 42). -/
def matchStepE (query : List A) (bodyindex : Nat) (bodychr : A) (keyindex : Nat)
    (s : SpanState) : Option SpanState :=
  match query[keyindex]? with
  | none => some s
  | some keychr =>
    if keychr = bodychr then
      (if keyindex = 0 then some (some (bodyindex, bodyindex))
       else (checkedSub keyindex 1).bind fun km1 =>
         (s.starting_at[km1]?).map fun prev =>
           prev.map fun p => (p.1, bodyindex)).bind fun newval =>
        if keyindex < s.starting_at.length then
          (if keyindex + 1 = query.length then
            ((s.starting_at.set keyindex newval)[keyindex]?).bind fun cur =>
              match cur with
              | none => some s.best_complete_solution
              | some (f, t) =>
                match s.best_complete_solution with
                | none => some (some (f, t))
                | some (cf, ct) =>
                  (checkedSub t f).bind fun l1 =>
                    (checkedSub ct cf).map fun l2 =>
                      some (if l1 < l2 then (f, t) else (cf, ct))
          else some s.best_complete_solution).map fun best =>
            ⟨s.starting_at.set keyindex newval, best⟩
        else none
    else some s

/-- The descending inner loop, with checks. -/
def forRevE (f : Nat → SpanState → Option SpanState) : Nat → SpanState → Option SpanState
  | 0, s => some s
  | j + 1, s => (f j s) >>= forRevE f j

/-- `span` with every index access and subtraction checked; `none` means that
some check failed (the Rust code would have panicked). -/
def spanE (query history : List A) : Option (Option (Nat × Nat)) :=
  if history.isEmpty then some none
  else if query.isEmpty then some (some (0, 0))
  else
    (List.foldlM (fun s (p : Nat × A) => forRevE (matchStepE query p.1 p.2) query.length s)
        (⟨query.map fun _ => none, none⟩ : SpanState) history.enum).map
      SpanState.best_complete_solution

/-! ### The imperative loop implements the functional model -/

lemma stepF_congr (query : List A) (n : Nat) (a : A) (f g : Nat → Option (Nat × Nat))
    (k : Nat) (h1 : f (k - 1) = g (k - 1)) (h2 : f k = g k) :
    stepF query n a f k = stepF query n a g k := by
  unfold stepF
  cases query[k]? with
  | none => exact h2
  | some c =>
    by_cases hc : c = a
    · by_cases hk : k = 0
      · subst hk; simp [hc]
      · simp [hc, hk, h1]
    · simp [hc, h2]

lemma matchStep_eq (query : List A) (n : Nat) (a : A) (f : Nat → Option (Nat × Nat))
    (j : Nat) (hj : j < query.length) (s : SpanState)
    (hs : s.starting_at = (List.range query.length).map f) :
    matchStep query n a j s =
      ⟨(List.range query.length).map fun k => if k = j then stepF query n a f k else f k,
        if j + 1 = query.length then
          (stepOffer query n a f).foldl bestUpdate s.best_complete_solution
        else s.best_complete_solution⟩ := by
  obtain ⟨c, hc⟩ : ∃ c, query[j]? = some c := ⟨_, List.getElem?_eq_getElem hj⟩
  have hlen : s.starting_at.length = query.length := by
    rw [hs, List.length_map, List.length_range]
  have hstepj : stepF query n a f j =
      if c = a then
        (if j = 0 then some (n, n) else (f (j - 1)).map fun p => (p.1, n))
      else f j := by
    unfold stepF; rw [hc]
  by_cases hca : c = a
  · -- the element matches: the frontier entry j is overwritten
    have hread : (s.starting_at[j - 1]?).getD none = f (j - 1) := by
      rw [hs, List.getElem?_map, List.getElem?_range (show j - 1 < query.length by omega)]
      rfl
    have hnewval :
        (if j = 0 then some (n, n)
          else ((s.starting_at[j - 1]?).getD none).map fun p => (p.1, n)) =
        stepF query n a f j := by
      rw [hstepj, if_pos hca, hread]
    have hsa : s.starting_at.set j (stepF query n a f j) =
        (List.range query.length).map fun k => if k = j then stepF query n a f k else f k := by
      apply List.ext_getElem?
      intro i
      by_cases hij : i = j
      · subst hij
        rw [List.getElem?_set_self (by rw [hlen]; exact hj), List.getElem?_map,
          List.getElem?_range hj]
        simp
      · rw [List.getElem?_set_ne (fun hne => hij hne.symm), hs, List.getElem?_map,
          List.getElem?_map]
        by_cases hi : i < query.length
        · rw [List.getElem?_range hi]
          simp [hij]
        · rw [List.getElem?_eq_none (by rw [List.length_range]; omega)]
          rfl
    have hsaval : (((List.range query.length).map fun k =>
        if k = j then stepF query n a f k else f k)[j]?).getD none =
        stepF query n a f j := by
      rw [List.getElem?_map, List.getElem?_range hj]
      simp
    simp only [matchStep, hc, if_pos hca]
    rw [hnewval, hsa, hsaval]
    congr 1
    by_cases hjm : j + 1 = query.length
    · rw [if_pos hjm, if_pos hjm]
      have hj1 : query.length - 1 = j := by omega
      have hoff : stepOffer query n a f = (stepF query n a f j).toList := by
        unfold stepOffer
        rw [hj1, hc]
        show (if c = a then (stepF query n a f j).toList else []) = _
        rw [if_pos hca]
      rw [hoff]
      cases hsf : stepF query n a f j with
      | none => rfl
      | some p =>
        obtain ⟨p1, p2⟩ := p
        simp only [Option.toList, List.foldl_cons, List.foldl_nil]
        cases s.best_complete_solution <;> rfl
    · rw [if_neg hjm, if_neg hjm]
  · -- no match: the state is unchanged
    have hmap : ((List.range query.length).map fun k =>
        if k = j then stepF query n a f k else f k) = (List.range query.length).map f := by
      apply List.map_congr_left
      intro k _
      by_cases hkj : k = j
      · subst hkj
        rw [if_pos rfl, hstepj, if_neg hca]
      · rw [if_neg hkj]
    have hbest : (if j + 1 = query.length then
        (stepOffer query n a f).foldl bestUpdate s.best_complete_solution
        else s.best_complete_solution) = s.best_complete_solution := by
      by_cases hjm : j + 1 = query.length
      · rw [if_pos hjm]
        have hj1 : query.length - 1 = j := by omega
        have hoff : stepOffer query n a f = [] := by
          unfold stepOffer
          rw [hj1, hc]
          show (if c = a then (stepF query n a f j).toList else []) = _
          rw [if_neg hca]
        rw [hoff]
        rfl
      · rw [if_neg hjm]
    simp only [matchStep, hc, if_neg hca]
    rw [hmap, hbest, ← hs]

lemma forRev_matchStep_eq (query : List A) (n : Nat) (a : A) (hm : 0 < query.length) :
    ∀ j, j ≤ query.length → ∀ (f : Nat → Option (Nat × Nat)) (s : SpanState),
      s.starting_at = (List.range query.length).map f →
      forRev (matchStep query n a) j s =
        ⟨(List.range query.length).map fun k =>
            if k < j then stepF query n a f k else f k,
          if j = query.length then
            (stepOffer query n a f).foldl bestUpdate s.best_complete_solution
          else s.best_complete_solution⟩ := by
  intro j
  induction j with
  | zero =>
    intro _ f s hs
    have h0 : ¬ (0 = query.length) := by omega
    have hmap : ((List.range query.length).map fun k =>
        if k < 0 then stepF query n a f k else f k) = (List.range query.length).map f :=
      List.map_congr_left fun k _ => by simp
    show s = _
    rw [hmap, if_neg h0, ← hs]
  | succ j ih =>
    intro hj f s hs
    have hjlt : j < query.length := by omega
    show forRev (matchStep query n a) j (matchStep query n a j s) = _
    rw [matchStep_eq query n a f j hjlt s hs,
      ih (by omega) (fun k => if k = j then stepF query n a f k else f k) _ rfl]
    have hjne : ¬ (j = query.length) := by omega
    rw [if_neg hjne]
    congr 1
    apply List.map_congr_left
    intro k _
    by_cases hk1 : k < j
    · rw [if_pos hk1, if_pos (by omega : k < j + 1)]
      apply stepF_congr
      · rw [if_neg (by omega : ¬ (k - 1 = j))]
      · rw [if_neg (by omega : ¬ (k = j))]
    · by_cases hk2 : k = j
      · subst hk2
        rw [if_neg hk1, if_pos rfl, if_pos (Nat.lt_succ_self k)]
      · rw [if_neg hk1, if_neg hk2, if_neg (by omega : ¬ k < j + 1)]

lemma frontier_succ (query history : List A) (n k : Nat) (a : A)
    (hn : history[n]? = some a) :
    frontier query history (n + 1) k =
      stepF query n a (fun j => frontier query history n j) k := by
  simp only [frontier, hn]

lemma offers_succ (query history : List A) (n : Nat) (a : A)
    (hn : history[n]? = some a) :
    offers query history (n + 1) =
      offers query history n ++
        stepOffer query n a (fun j => frontier query history n j) := by
  simp only [offers, hn]

omit [DecidableEq A] in
lemma take_enum_succ (history : List A) (n : Nat) (hn : n < history.length) :
    (history.take (n + 1)).enum =
      (history.take n).enum ++ [(n, history.get ⟨n, hn⟩)] := by
  have h1 : history[n]? = some (history.get ⟨n, hn⟩) := List.getElem?_eq_getElem hn
  rw [List.take_succ, h1, List.enum_append]
  have h2 : (history.take n).length = n := by
    rw [List.length_take]; omega
  rw [h2]
  rfl

lemma run_eq_model (query history : List A) (hq : query ≠ []) :
    ∀ n, n ≤ history.length →
      List.foldl (bodyStep query) ⟨query.map fun _ => none, none⟩ (history.take n).enum =
        ⟨(List.range query.length).map fun k => frontier query history n k,
          (offers query history n).foldl bestUpdate none⟩ := by
  have hm : 0 < query.length := List.length_pos.mpr hq
  intro n
  induction n with
  | zero =>
    intro _
    simp only [List.take_zero, List.enum_nil, List.foldl_nil]
    congr 1
    have h1 : (List.range query.length).map (fun k => frontier query history 0 k) =
        (List.range query.length).map fun _ => (none : Option (Nat × Nat)) :=
      List.map_congr_left fun k _ => rfl
    rw [h1, List.map_const', List.map_const', List.length_range]
  | succ n ih =>
    intro hn
    have hn' : n < history.length := by omega
    have hget : history[n]? = some (history.get ⟨n, hn'⟩) := List.getElem?_eq_getElem hn'
    rw [take_enum_succ history n hn', List.foldl_concat, ih (by omega)]
    show forRev (matchStep query n (history.get ⟨n, hn'⟩)) query.length _ = _
    rw [forRev_matchStep_eq query n _ hm query.length le_rfl
        (fun k => frontier query history n k) _ rfl, if_pos rfl]
    congr 1
    · apply List.map_congr_left
      intro k hk
      rw [if_pos (List.mem_range.mp hk), frontier_succ query history n k _ hget]
    · rw [offers_succ query history n _ hget, List.foldl_append]

lemma span_eq_spanModel (query history : List A) :
    span query history = spanModel query history := by
  unfold span spanModel
  by_cases hh : history.isEmpty = true
  · rw [if_pos hh, if_pos hh]
  · rw [if_neg hh, if_neg hh]
    by_cases hq : query.isEmpty = true
    · rw [if_pos hq, if_pos hq]
    · rw [if_neg hq, if_neg hq]
      have hq' : query ≠ [] := fun h => hq (List.isEmpty_iff.mpr h)
      have h1 := run_eq_model query history hq' history.length le_rfl
      rw [List.take_length] at h1
      rw [h1]

/-! ### Soundness of the frontier recurrence -/

lemma frontier_succ_none (query history : List A) (n k : Nat)
    (hn : history[n]? = none) :
    frontier query history (n + 1) k = frontier query history n k := by
  simp only [frontier, hn]

omit [DecidableEq A] in
lemma slice_extend (history : List A) (s e' n : Nat) (hse : s ≤ e') (hen : e' < n) :
    slice history s n = slice history s e' ++ (history.drop (e' + 1)).take (n - e') := by
  unfold slice
  have h1 : n + 1 - s = (e' + 1 - s) + (n - e') := by omega
  have h2 : s + (e' + 1 - s) = e' + 1 := by omega
  rw [h1, List.take_add, List.drop_drop, h2]

omit [DecidableEq A] in
lemma singleton_sublist_drop_take (history : List A) (e' n : Nat) (a : A)
    (hen : e' < n) (hn : history[n]? = some a) :
    [a].Sublist ((history.drop (e' + 1)).take (n - e')) := by
  rw [List.singleton_sublist]
  have h1 : ((history.drop (e' + 1)).take (n - e'))[n - e' - 1]? = some a := by
    rw [List.getElem?_take_of_lt (by omega), List.getElem?_drop,
      show e' + 1 + (n - e' - 1) = n by omega]
    exact hn
  exact List.mem_iff_getElem?.mpr ⟨_, h1⟩

omit [DecidableEq A] in
lemma slice_self (history : List A) (n : Nat) (a : A) (hn : history[n]? = some a) :
    slice history n n = [a] := by
  unfold slice
  rw [show n + 1 - n = 1 by omega, List.take_one, List.head?_drop, hn]
  rfl

omit [DecidableEq A] in
lemma take_one_of_getElem (query : List A) (c : A) (hc : query[0]? = some c) :
    query.take 1 = [c] := by
  rw [List.take_one, List.head?_eq_getElem?, hc]
  rfl

lemma frontier_sound (query history : List A) :
    ∀ n k s e, k < query.length → frontier query history n k = some (s, e) →
      s ≤ e ∧ e < n ∧ e < history.length ∧
      history[e]? = query[k]? ∧ history[s]? = query[0]? ∧
      (query.take (k + 1)).Sublist (slice history s e) := by
  intro n
  induction n with
  | zero => intro k s e _ h; simp [frontier] at h
  | succ n ih =>
    intro k s e hk h
    cases hh : history[n]? with
    | none =>
      rw [frontier_succ_none query history n k hh] at h
      obtain ⟨h1, h2, h3, h4, h5, h6⟩ := ih k s e hk h
      exact ⟨h1, by omega, h3, h4, h5, h6⟩
    | some a =>
      have hnlen : n < history.length := (List.getElem?_eq_some.mp hh).1
      rw [frontier_succ query history n k a hh] at h
      obtain ⟨c, hc⟩ : ∃ c, query[k]? = some c := ⟨_, List.getElem?_eq_getElem hk⟩
      simp only [stepF, hc] at h
      by_cases hca : c = a
      · rw [if_pos hca] at h
        by_cases hk0 : k = 0
        · rw [if_pos hk0] at h
          obtain ⟨rfl, rfl⟩ : n = s ∧ n = e := by
            simpa using h
          subst hk0
          refine ⟨le_refl n, by omega, hnlen, ?_, ?_, ?_⟩
          · rw [hh, hc, hca]
          · rw [hh, hc, hca]
          · rw [take_one_of_getElem query c hc, slice_self history n a hh, hca]
        · rw [if_neg hk0] at h
          obtain ⟨⟨s', e'⟩, hfe, heq⟩ := Option.map_eq_some'.mp h
          obtain ⟨hs1, he1⟩ : s' = s ∧ n = e := by
            simpa using heq
          obtain ⟨ih1, ih2, ih3, ih4, ih5, ih6⟩ :=
            ih (k - 1) s' e' (by omega) hfe
          rw [← hs1, ← he1]
          refine ⟨by omega, by omega, hnlen, ?_, ih5, ?_⟩
          · rw [hh, hc, hca]
          · have htake : query.take (k + 1) = query.take k ++ [c] := by
              rw [List.take_succ, hc]
              rfl
            have hsub1 : (query.take k).Sublist (slice history s' e') := by
              rw [show k = k - 1 + 1 by omega]
              exact ih6
            have hsub2 : [c].Sublist ((history.drop (e' + 1)).take (n - e')) := by
              rw [hca]
              exact singleton_sublist_drop_take history e' n a ih2 hh
            rw [htake, slice_extend history s' e' n ih1 ih2]
            exact List.Sublist.append hsub1 hsub2
      · rw [if_neg hca] at h
        obtain ⟨h1, h2, h3, h4, h5, h6⟩ := ih k s e hk h
        exact ⟨h1, by omega, h3, h4, h5, h6⟩

/-! ### Monotonicity of the frontier: both components only ever grow -/

lemma frontier_succ_cases (query history : List A) (n k : Nat) :
    frontier query history (n + 1) k = frontier query history n k ∨
    (∃ a c, history[n]? = some a ∧ query[k]? = some c ∧ c = a ∧
      ((k = 0 ∧ frontier query history (n + 1) k = some (n, n)) ∨
       (0 < k ∧ frontier query history (n + 1) k =
         (frontier query history n (k - 1)).map fun p => (p.1, n)))) := by
  cases hh : history[n]? with
  | none => exact Or.inl (frontier_succ_none query history n k hh)
  | some a =>
    rw [frontier_succ query history n k a hh]
    cases hc : query[k]? with
    | none =>
      left
      simp [stepF, hc]
    | some c =>
      by_cases hca : c = a
      · right
        refine ⟨a, c, rfl, rfl, hca, ?_⟩
        by_cases hk0 : k = 0
        · left
          subst hk0
          exact ⟨rfl, by simp [stepF, hc, hca]⟩
        · right
          exact ⟨by omega, by simp [stepF, hc, hca, hk0]⟩
      · left
        simp [stepF, hc, hca]

lemma frontier_mono_cross (query history : List A) :
    ∀ k, k < query.length →
      (∀ n s e, frontier query history n k = some (s, e) →
          ∃ t1 t2, frontier query history (n + 1) k = some (t1, t2) ∧ s ≤ t1 ∧ e ≤ t2) ∧
      (∀ n s e, 0 < k → frontier query history n k = some (s, e) →
          ∃ t1 t2, frontier query history n (k - 1) = some (t1, t2) ∧ s ≤ t1) := by
  intro k
  induction k with
  | zero =>
    intro hk
    refine ⟨?_, ?_⟩
    · intro n s e hf
      rcases frontier_succ_cases query history n 0 with heq | ⟨a, c, hh, hc, hca, hrest⟩
      · exact ⟨s, e, by rw [heq]; exact hf, le_rfl, le_rfl⟩
      · obtain ⟨hse, hen, _⟩ := frontier_sound query history n 0 s e hk hf
        rcases hrest with ⟨_, hupd⟩ | ⟨hpos, _⟩
        · exact ⟨n, n, hupd, by omega, by omega⟩
        · omega
    · intro n s e hpos
      omega
  | succ k ihk =>
    intro hk
    have hk' : k < query.length := by omega
    obtain ⟨Mk, _⟩ := ihk hk'
    have X : ∀ n s e, frontier query history n (k + 1) = some (s, e) →
        ∃ t1 t2, frontier query history n k = some (t1, t2) ∧ s ≤ t1 := by
      intro n
      induction n with
      | zero =>
        intro s e hf
        simp [frontier] at hf
      | succ n ihn =>
        intro s e hf
        rcases frontier_succ_cases query history n (k + 1) with heq | ⟨a, c, hh, hc, hca, hrest⟩
        · rw [heq] at hf
          obtain ⟨t1, t2, h1, h2⟩ := ihn s e hf
          obtain ⟨u1, u2, h3, h4, _⟩ := Mk n t1 t2 h1
          exact ⟨u1, u2, h3, by omega⟩
        · rcases hrest with ⟨hzero, _⟩ | ⟨_, hupd⟩
          · omega
          · rw [hupd] at hf
            obtain ⟨⟨s1, e1⟩, hfe, heq2⟩ := Option.map_eq_some'.mp hf
            obtain ⟨hs1, he1⟩ : s1 = s ∧ n = e := by simpa using heq2
            obtain ⟨u1, u2, h3, h4, _⟩ := Mk n s1 e1 hfe
            exact ⟨u1, u2, h3, by omega⟩
    refine ⟨?_, ?_⟩
    · intro n s e hf
      rcases frontier_succ_cases query history n (k + 1) with heq | ⟨a, c, hh, hc, hca, hrest⟩
      · exact ⟨s, e, by rw [heq]; exact hf, le_rfl, le_rfl⟩
      · obtain ⟨hse, hen, _⟩ := frontier_sound query history n (k + 1) s e hk hf
        rcases hrest with ⟨hzero, _⟩ | ⟨_, hupd⟩
        · omega
        · obtain ⟨t1, t2, h1, h2⟩ := X n s e hf
          refine ⟨t1, n, ?_, h2, by omega⟩
          rw [hupd, show k + 1 - 1 = k from rfl, h1]
          rfl
    · intro n s e _ hf
      obtain ⟨t1, t2, h1, h2⟩ := X n s e hf
      exact ⟨t1, t2, by simpa using h1, h2⟩

lemma frontier_mono (query history : List A) (k : Nat) (hk : k < query.length) :
    ∀ n n', n ≤ n' → ∀ s e, frontier query history n k = some (s, e) →
      ∃ t1 t2, frontier query history n' k = some (t1, t2) ∧ s ≤ t1 ∧ e ≤ t2 := by
  intro n n' hle
  induction n', hle using Nat.le_induction with
  | base =>
    intro s e hf
    exact ⟨s, e, hf, le_rfl, le_rfl⟩
  | succ n' hle ih =>
    intro s e hf
    obtain ⟨t1, t2, h1, h2, h3⟩ := ih s e hf
    obtain ⟨u1, u2, h4, h5, h6⟩ := (frontier_mono_cross query history k hk).1 n' t1 t2 h1
    exact ⟨u1, u2, h4, by omega, by omega⟩

/-! ### Completeness of the frontier: every window containing the query
produces a frontier entry inside it -/

omit [DecidableEq A] in
lemma sublist_concat_decomp (l q : List A) (c : A)
    (hsub : (q ++ [c]).Sublist l) :
    ∃ l1 l2, l = l1 ++ c :: l2 ∧ q.Sublist l1 := by
  obtain ⟨r1, r2, hl, hq, hcr⟩ := List.append_sublist_iff.mp hsub
  have hc : c ∈ r2 := List.singleton_sublist.mp hcr
  obtain ⟨u, v, huv⟩ := List.append_of_mem hc
  refine ⟨r1 ++ u, v, ?_, ?_⟩
  · rw [hl, huv, List.append_assoc]
  · exact hq.trans (List.sublist_append_left r1 u)

omit [DecidableEq A] in
lemma slice_getElem (l : List A) (f t p : Nat) (hp : p < t + 1 - f) :
    (slice l f t)[p]? = l[f + p]? := by
  unfold slice
  rw [List.getElem?_take_of_lt hp, List.getElem?_drop]

omit [DecidableEq A] in
lemma slice_length_le (l : List A) (f t : Nat) : (slice l f t).length ≤ t + 1 - f :=
  List.length_take_le _ _

omit [DecidableEq A] in
lemma slice_take (l : List A) (f t p : Nat) (hp1 : 0 < p) (hp2 : p ≤ t + 1 - f) :
    (slice l f t).take p = slice l f (f + p - 1) := by
  unfold slice
  rw [List.take_take]
  congr 1
  omega

lemma frontier_complete (query history : List A) :
    ∀ k, k < query.length → ∀ f t, t < history.length →
      (query.take (k + 1)).Sublist (slice history f t) →
      ∃ s e, frontier query history (t + 1) k = some (s, e) ∧ f ≤ s ∧ e ≤ t := by
  intro k
  induction k with
  | zero =>
    intro hk f t ht hsub
    obtain ⟨c, hc⟩ : ∃ c, query[0]? = some c := ⟨_, List.getElem?_eq_getElem hk⟩
    rw [take_one_of_getElem query c hc] at hsub
    obtain ⟨p, hp⟩ := List.mem_iff_getElem?.mp (List.singleton_sublist.mp hsub)
    have hplen : p < (slice history f t).length := (List.getElem?_eq_some.mp hp).1
    have hp2 : p < t + 1 - f := lt_of_lt_of_le hplen (slice_length_le history f t)
    rw [slice_getElem history f t p hp2] at hp
    have hupd : frontier query history (f + p + 1) 0 = some (f + p, f + p) := by
      rw [frontier_succ query history (f + p) 0 c hp]
      simp [stepF, hc]
    obtain ⟨s, e, h1, h2, h3⟩ :=
      frontier_mono query history 0 hk (f + p + 1) (t + 1) (by omega) (f + p) (f + p) hupd
    obtain ⟨_, he, _⟩ := frontier_sound query history (t + 1) 0 s e hk h1
    exact ⟨s, e, h1, by omega, by omega⟩
  | succ k ih =>
    intro hk f t ht hsub
    obtain ⟨c, hc⟩ : ∃ c, query[k + 1]? = some c := ⟨_, List.getElem?_eq_getElem hk⟩
    have htake : query.take (k + 2) = query.take (k + 1) ++ [c] := by
      rw [List.take_succ, hc]
      rfl
    rw [htake] at hsub
    obtain ⟨l1, l2, hdecomp, hq1⟩ := sublist_concat_decomp _ _ c hsub
    have hl1len : l1.length < (slice history f t).length := by
      rw [hdecomp, List.length_append, List.length_cons]
      omega
    have hl1lt : l1.length < t + 1 - f := lt_of_lt_of_le hl1len (slice_length_le history f t)
    have hjc : history[f + l1.length]? = some c := by
      have h1 : (slice history f t)[l1.length]? = some c := by
        rw [hdecomp, List.getElem?_append_right le_rfl]
        simp
      rw [← slice_getElem history f t l1.length hl1lt, h1]
    have hq1len : (query.take (k + 1)).length = k + 1 := by
      rw [List.length_take]
      omega
    have hl1pos : 0 < l1.length := by
      rcases Nat.eq_zero_or_pos l1.length with hz | hp
      · exfalso
        rw [List.length_eq_zero.mp hz] at hq1
        have hlen := congrArg List.length (List.eq_nil_of_sublist_nil hq1)
        rw [hq1len] at hlen
        simp at hlen
      · exact hp
    have hsub1 : (query.take (k + 1)).Sublist (slice history f (f + l1.length - 1)) := by
      rw [← slice_take history f t l1.length hl1pos (le_of_lt hl1lt), hdecomp, List.take_left]
      exact hq1
    have hj1 : f + l1.length - 1 < history.length := by omega
    obtain ⟨s1, e1, hf1, hfs1, hes1⟩ := ih (by omega) f (f + l1.length - 1) hj1 hsub1
    rw [show f + l1.length - 1 + 1 = f + l1.length by omega] at hf1
    have hupd : frontier query history (f + l1.length + 1) (k + 1) =
        some (s1, f + l1.length) := by
      rw [frontier_succ query history (f + l1.length) (k + 1) c hjc]
      simp [stepF, hc, hf1]
    obtain ⟨s, e, h1, h2, h3⟩ :=
      frontier_mono query history (k + 1) hk (f + l1.length + 1) (t + 1) (by omega)
        s1 (f + l1.length) hupd
    obtain ⟨_, he, _⟩ := frontier_sound query history (t + 1) (k + 1) s e hk h1
    exact ⟨s, e, h1, by omega, by omega⟩

/-! ### The candidate list -/

lemma offers_succ_none (query history : List A) (n : Nat) (hn : history[n]? = none) :
    offers query history (n + 1) = offers query history n := by
  simp only [offers, hn, List.append_nil]

lemma offers_subset (query history : List A) :
    ∀ n n', n ≤ n' → ∀ c, c ∈ offers query history n → c ∈ offers query history n' := by
  intro n n' hle
  induction n', hle using Nat.le_induction with
  | base => exact fun c h => h
  | succ n' hle ih =>
    intro c hcm
    cases hh : history[n']? with
    | none =>
      rw [offers_succ_none query history n' hh]
      exact ih c hcm
    | some a =>
      rw [offers_succ query history n' a hh]
      exact List.mem_append_left _ (ih c hcm)

lemma stepOffer_mem (query : List A) (n : Nat) (a : A) (f : Nat → Option (Nat × Nat))
    (c0 : Nat × Nat) (hm : c0 ∈ stepOffer query n a f) :
    stepF query n a f (query.length - 1) = some c0 ∧ c0.2 = n := by
  cases hq : query[query.length - 1]? with
  | none =>
    simp only [stepOffer, hq] at hm
    simp at hm
  | some c =>
    simp only [stepOffer, hq] at hm
    by_cases hca : c = a
    · rw [if_pos hca] at hm
      have hsf : stepF query n a f (query.length - 1) = some c0 := by
        cases hv : stepF query n a f (query.length - 1) with
        | none =>
          rw [hv] at hm
          simp at hm
        | some v =>
          rw [hv] at hm
          simp at hm
          rw [hm]
      refine ⟨hsf, ?_⟩
      simp only [stepF, hq, if_pos hca] at hsf
      by_cases h0 : query.length - 1 = 0
      · rw [if_pos h0] at hsf
        have h1 : (n, n) = c0 := by simpa using hsf
        rw [← h1]
      · rw [if_neg h0] at hsf
        obtain ⟨p, hp, hpc⟩ := Option.map_eq_some'.mp hsf
        rw [← hpc]
    · rw [if_neg hca] at hm
      simp at hm

lemma offers_sound (query history : List A) (hq : query ≠ []) :
    ∀ n c, c ∈ offers query history n →
      c.1 ≤ c.2 ∧ c.2 < history.length ∧
      history[c.1]? = query[0]? ∧ history[c.2]? = query[query.length - 1]? ∧
      query.Sublist (slice history c.1 c.2) := by
  have hm : 0 < query.length := List.length_pos.mpr hq
  intro n
  induction n with
  | zero =>
    intro c h
    simp [offers] at h
  | succ n ih =>
    intro c hc
    cases hh : history[n]? with
    | none =>
      rw [offers_succ_none query history n hh] at hc
      exact ih c hc
    | some a =>
      rw [offers_succ query history n a hh] at hc
      rcases List.mem_append.mp hc with hold | hnew
      · exact ih c hold
      · have hsf := (stepOffer_mem query n a _ c hnew).1
        have hfr : frontier query history (n + 1) (query.length - 1) = some c := by
          rw [frontier_succ query history n _ a hh]
          exact hsf
        obtain ⟨c1, c2⟩ := c
        obtain ⟨h1, h2, h3, h4, h5, h6⟩ :=
          frontier_sound query history (n + 1) (query.length - 1) c1 c2 (by omega) hfr
        refine ⟨h1, h3, h5, h4, ?_⟩
        rw [show query.length - 1 + 1 = query.length by omega, List.take_length] at h6
        exact h6

lemma offers_end_lt (query history : List A) :
    ∀ n c, c ∈ offers query history n → c.2 < n := by
  intro n
  induction n with
  | zero =>
    intro c h
    simp [offers] at h
  | succ n ih =>
    intro c hc
    cases hh : history[n]? with
    | none =>
      rw [offers_succ_none query history n hh] at hc
      exact lt_trans (ih c hc) (Nat.lt_succ_self n)
    | some a =>
      rw [offers_succ query history n a hh] at hc
      rcases List.mem_append.mp hc with hold | hnew
      · exact lt_trans (ih c hold) (Nat.lt_succ_self n)
      · rw [(stepOffer_mem query n a _ c hnew).2]
        exact Nat.lt_succ_self n

lemma offers_pairwise (query history : List A) :
    ∀ n, (offers query history n).Pairwise fun x y => x.2 < y.2 := by
  intro n
  induction n with
  | zero => simp [offers]
  | succ n ih =>
    cases hh : history[n]? with
    | none =>
      rw [offers_succ_none query history n hh]
      exact ih
    | some a =>
      rw [offers_succ query history n a hh]
      rw [List.pairwise_append]
      refine ⟨ih, ?_, ?_⟩
      · cases hqq : query[query.length - 1]? with
        | none => simp [stepOffer, hqq]
        | some c =>
          simp only [stepOffer, hqq]
          by_cases hca : c = a
          · rw [if_pos hca]
            cases stepF query n a (fun j => frontier query history n j) (query.length - 1) <;>
              simp
          · rw [if_neg hca]
            simp
      · intro x hx y hy
        rw [(stepOffer_mem query n a _ y hy).2]
        exact offers_end_lt query history n x hx

lemma offers_of_frontier (query history : List A) (hq : query ≠ []) :
    ∀ n s e, frontier query history n (query.length - 1) = some (s, e) →
      (s, e) ∈ offers query history n := by
  have hm : 0 < query.length := List.length_pos.mpr hq
  intro n
  induction n with
  | zero =>
    intro s e h
    simp [frontier] at h
  | succ n ih =>
    intro s e h
    cases hh : history[n]? with
    | none =>
      rw [offers_succ_none query history n hh]
      rw [frontier_succ_none query history n _ hh] at h
      exact ih s e h
    | some a =>
      rw [offers_succ query history n a hh]
      rw [frontier_succ query history n _ a hh] at h
      obtain ⟨c, hc⟩ : ∃ c, query[query.length - 1]? = some c :=
        ⟨_, List.getElem?_eq_getElem (by omega)⟩
      by_cases hca : c = a
      · apply List.mem_append_right
        simp only [stepOffer, hc]
        rw [if_pos hca, h]
        simp
      · apply List.mem_append_left
        apply ih
        simp only [stepF, hc] at h
        rw [if_neg hca] at h
        exact h

lemma offers_complete (query history : List A) (hq : query ≠ []) (f t : Nat)
    (ht : t < history.length) (hsub : query.Sublist (slice history f t)) :
    ∃ s e, (s, e) ∈ offers query history (t + 1) ∧ f ≤ s ∧ e ≤ t := by
  have hm : 0 < query.length := List.length_pos.mpr hq
  have hsub' : (query.take (query.length - 1 + 1)).Sublist (slice history f t) := by
    rw [show query.length - 1 + 1 = query.length by omega, List.take_length]
    exact hsub
  obtain ⟨s, e, h1, h2, h3⟩ :=
    frontier_complete query history (query.length - 1) (by omega) f t ht hsub'
  exact ⟨s, e, offers_of_frontier query history hq (t + 1) s e h1, h2, h3⟩

/-! ### Folding the candidates with strictly-shorter replacement -/

omit [DecidableEq A] in
lemma foldl_bestUpdate_some :
    ∀ (l : List (Nat × Nat)) (a : Nat × Nat),
      ∃ x, List.foldl bestUpdate (some a) l = some x := by
  intro l
  induction l with
  | nil => exact fun a => ⟨a, rfl⟩
  | cons c l ih =>
    intro a
    show ∃ x, List.foldl bestUpdate (bestUpdate (some a) c) l = some x
    rw [show bestUpdate (some a) c = some (if c.2 - c.1 < a.2 - a.1 then c else a) from rfl]
    exact ih _

omit [DecidableEq A] in
lemma foldl_bestUpdate_spec :
    ∀ (l : List (Nat × Nat)) (a : Nat × Nat),
      (∀ c ∈ l, a.2 < c.2) → l.Pairwise (fun x y => x.2 < y.2) →
      ∃ x, List.foldl bestUpdate (some a) l = some x ∧
        (x = a ∨ x ∈ l) ∧ x.2 - x.1 ≤ a.2 - a.1 ∧
        (∀ c ∈ l, x.2 - x.1 ≤ c.2 - c.1) ∧
        (x.2 - x.1 = a.2 - a.1 → x = a) ∧
        (∀ c ∈ l, x.2 - x.1 = c.2 - c.1 → x.2 ≤ c.2) := by
  intro l
  induction l with
  | nil =>
    intro a _ _
    exact ⟨a, rfl, Or.inl rfl, le_rfl, by simp, fun _ => rfl, by simp⟩
  | cons c l ih =>
    intro a hend hpw
    have hpw' : l.Pairwise (fun x y => x.2 < y.2) := (List.pairwise_cons.mp hpw).2
    have hcl : ∀ y ∈ l, c.2 < y.2 := (List.pairwise_cons.mp hpw).1
    have hac : a.2 < c.2 := hend c (List.mem_cons_self c l)
    by_cases hlt : c.2 - c.1 < a.2 - a.1
    · have hstep : bestUpdate (some a) c = some c := by
        simp [bestUpdate, hlt]
      obtain ⟨x, hx, hmem, hle, hall, heqc, hfirst⟩ := ih c hcl hpw'
      refine ⟨x, ?_, ?_, by omega, ?_, ?_, ?_⟩
      · show List.foldl bestUpdate (bestUpdate (some a) c) l = some x
        rw [hstep]
        exact hx
      · rcases hmem with h | h
        · exact Or.inr (h ▸ List.mem_cons_self c l)
        · exact Or.inr (List.mem_cons_of_mem c h)
      · intro d hd
        rcases List.mem_cons.mp hd with h | hd'
        · subst h
          exact hle
        · exact hall d hd'
      · intro hx_eq
        exfalso
        omega
      · intro d hd hdeq
        rcases List.mem_cons.mp hd with h | hd'
        · subst h
          rw [heqc hdeq]
        · exact hfirst d hd' hdeq
    · have hstep : bestUpdate (some a) c = some a := by
        simp [bestUpdate, hlt]
      obtain ⟨x, hx, hmem, hle, hall, heqa, hfirst⟩ :=
        ih a (fun y hy => hend y (List.mem_cons_of_mem c hy)) hpw'
      refine ⟨x, ?_, ?_, hle, ?_, heqa, ?_⟩
      · show List.foldl bestUpdate (bestUpdate (some a) c) l = some x
        rw [hstep]
        exact hx
      · rcases hmem with h | h
        · exact Or.inl h
        · exact Or.inr (List.mem_cons_of_mem c h)
      · intro d hd
        rcases List.mem_cons.mp hd with h | hd'
        · subst h
          omega
        · exact hall d hd'
      · intro d hd hdeq
        rcases List.mem_cons.mp hd with h | hd'
        · subst h
          have hxa : x = a := heqa (by omega)
          rw [hxa]
          omega
        · exact hfirst d hd' hdeq

/-! ### The checked run never fails and agrees with the unchecked one -/

/-- Invariant of the main loop after the first `n` history elements: the
frontier vector keeps its length, and every recorded span `(s, e)` satisfies
`s ≤ e < n`. -/
def StateOK (m n : Nat) (s : SpanState) : Prop :=
  s.starting_at.length = m ∧
  (∀ p ∈ s.starting_at, ∀ x ∈ p, x.1 ≤ x.2 ∧ x.2 < n) ∧
  (∀ x ∈ s.best_complete_solution, x.1 ≤ x.2 ∧ x.2 < n)

lemma matchStepE_eq (query : List A) (n : Nat) (a : A) (k : Nat) (s : SpanState)
    (hk : k < query.length) (hok : StateOK query.length (n + 1) s) :
    matchStepE query n a k s = some (matchStep query n a k s) ∧
    StateOK query.length (n + 1) (matchStep query n a k s) := by
  obtain ⟨hlen, hsaok, hbestok⟩ := hok
  obtain ⟨c, hc⟩ : ∃ c, query[k]? = some c := ⟨_, List.getElem?_eq_getElem hk⟩
  by_cases hca : c = a
  case neg =>
    refine ⟨?_, ?_⟩
    · simp [matchStepE, matchStep, hc, hca]
    · rw [show matchStep query n a k s = s by simp [matchStep, hc, hca]]
      exact ⟨hlen, hsaok, hbestok⟩
  case pos =>
    have hklen : k < s.starting_at.length := by rw [hlen]; exact hk
    -- the value written into frontier entry k, and its bounds
    obtain ⟨NV, hNVdef, hNVok⟩ : ∃ v, (if k = 0 then some (n, n)
        else ((s.starting_at[k - 1]?).getD none).map fun p => (p.1, n)) = v ∧
        ∀ x ∈ v, x.1 ≤ x.2 ∧ x.2 ≤ n := by
      by_cases hk0 : k = 0
      · refine ⟨some (n, n), by rw [if_pos hk0], ?_⟩
        intro x hx
        have hxe : x = (n, n) := by simpa [eq_comm] using hx
        subst hxe
        exact ⟨le_rfl, le_rfl⟩
      · obtain ⟨prev, hprev⟩ : ∃ p, s.starting_at[k - 1]? = some p :=
          ⟨_, List.getElem?_eq_getElem (by omega : k - 1 < s.starting_at.length)⟩
        refine ⟨prev.map fun p => (p.1, n), by rw [if_neg hk0, hprev]; rfl, ?_⟩
        intro x hx
        obtain ⟨p, hp, hpx⟩ := Option.map_eq_some'.mp (Option.mem_def.mp hx)
        have hprevmem : prev ∈ s.starting_at := by
          obtain ⟨hlt, heq⟩ := List.getElem?_eq_some.mp hprev
          exact heq ▸ List.getElem_mem hlt
        obtain ⟨hp1, hp2⟩ := hsaok prev hprevmem p (Option.mem_def.mpr hp)
        rw [← hpx]
        exact ⟨by omega, le_rfl⟩
    -- the checked newval computation succeeds with the same value
    have hnvE : (if k = 0 then some (some (n, n))
        else (checkedSub k 1).bind fun km1 =>
          (s.starting_at[km1]?).map fun prev => prev.map fun p => (p.1, n)) =
        some NV := by
      by_cases hk0 : k = 0
      · rw [if_pos hk0, ← hNVdef, if_pos hk0]
      · obtain ⟨prev, hprev⟩ : ∃ p, s.starting_at[k - 1]? = some p :=
          ⟨_, List.getElem?_eq_getElem (by omega : k - 1 < s.starting_at.length)⟩
        have hsub1 : checkedSub k 1 = some (k - 1) := by
          unfold checkedSub
          rw [if_pos (by omega : 1 ≤ k)]
        rw [if_neg hk0, hsub1, Option.some_bind, hprev, ← hNVdef, if_neg hk0, hprev]
        rfl
    -- reading back the entry just written
    have hread : (s.starting_at.set k NV)[k]? = some NV :=
      List.getElem?_set_self hklen
    -- the unchecked best value, and its bounds
    obtain ⟨BV, hBVdef, hBVok⟩ : ∃ b, (if k + 1 = query.length then
        match ((s.starting_at.set k NV)[k]?).getD none with
        | none => s.best_complete_solution
        | some (f0, t0) =>
          match s.best_complete_solution with
          | none => some (f0, t0)
          | some (cf, ct) => some (if t0 - f0 < ct - cf then (f0, t0) else (cf, ct))
        else s.best_complete_solution) = b ∧
        ∀ x ∈ b, x.1 ≤ x.2 ∧ x.2 < n + 1 := by
      by_cases hkm : k + 1 = query.length
      · rw [if_pos hkm, hread]
        cases hNV : NV with
        | none => exact ⟨s.best_complete_solution, rfl, hbestok⟩
        | some v =>
          obtain ⟨v1, v2⟩ := v
          have hvok : v1 ≤ v2 ∧ v2 ≤ n := hNVok (v1, v2) (by rw [hNV]; rfl)
          cases hbs : s.best_complete_solution with
          | none =>
            refine ⟨some (v1, v2), rfl, ?_⟩
            intro x hx
            have hxe : x = (v1, v2) := by simpa [eq_comm] using hx
            subst hxe
            exact ⟨hvok.1, by omega⟩
          | some b0 =>
            obtain ⟨b1, b2⟩ := b0
            have hbok : b1 ≤ b2 ∧ b2 < n + 1 := hbestok (b1, b2) (by rw [hbs]; rfl)
            refine ⟨some (if v2 - v1 < b2 - b1 then (v1, v2) else (b1, b2)), rfl, ?_⟩
            intro x hx
            have hxe : x = (if v2 - v1 < b2 - b1 then (v1, v2) else (b1, b2)) := by
              simpa [eq_comm] using hx
            subst hxe
            by_cases hvb : v2 - v1 < b2 - b1
            · rw [if_pos hvb]
              exact ⟨hvok.1, by omega⟩
            · rw [if_neg hvb]
              exact hbok
      · rw [if_neg hkm]
        exact ⟨s.best_complete_solution, rfl, hbestok⟩
    -- the checked best computation succeeds with the same value
    have hbvE : (if k + 1 = query.length then
        ((s.starting_at.set k NV)[k]?).bind fun cur =>
          match cur with
          | none => some s.best_complete_solution
          | some (f0, t0) =>
            match s.best_complete_solution with
            | none => some (some (f0, t0))
            | some (cf, ct) =>
              (checkedSub t0 f0).bind fun l1 =>
                (checkedSub ct cf).map fun l2 =>
                  some (if l1 < l2 then (f0, t0) else (cf, ct))
        else some s.best_complete_solution) = some BV := by
      by_cases hkm : k + 1 = query.length
      · rw [if_pos hkm, hread, Option.some_bind]
        rw [← hBVdef, if_pos hkm, hread]
        cases hNV : NV with
        | none => rfl
        | some v =>
          obtain ⟨v1, v2⟩ := v
          have hvok : v1 ≤ v2 ∧ v2 ≤ n := hNVok (v1, v2) (by rw [hNV]; rfl)
          cases hbs : s.best_complete_solution with
          | none => rfl
          | some b0 =>
            obtain ⟨b1, b2⟩ := b0
            have hbok : b1 ≤ b2 ∧ b2 < n + 1 := hbestok (b1, b2) (by rw [hbs]; rfl)
            have hs1 : checkedSub v2 v1 = some (v2 - v1) := by
              unfold checkedSub
              rw [if_pos hvok.1]
            have hs2 : checkedSub b2 b1 = some (b2 - b1) := by
              unfold checkedSub
              rw [if_pos hbok.1]
            show (checkedSub v2 v1).bind _ = _
            rw [hs1, Option.some_bind, hs2]
            rfl
      · rw [if_neg hkm, ← hBVdef, if_neg hkm]
    -- the unchecked step, zeta-reduced
    have hstep : matchStep query n a k s =
        ⟨s.starting_at.set k NV, BV⟩ := by
      simp only [matchStep, hc, if_pos hca, hNVdef]
      rw [← hBVdef]
    refine ⟨?_, ?_⟩
    · rw [hstep]
      simp only [matchStepE, hc, if_pos hca]
      rw [hnvE, Option.some_bind, if_pos hklen, hbvE]
      rfl
    · rw [hstep]
      refine ⟨by rw [List.length_set]; exact hlen, ?_, ?_⟩
      · intro p hp x hx
        rcases List.mem_or_eq_of_mem_set hp with hmem | hNV2
        · exact hsaok p hmem x hx
        · subst hNV2
          obtain ⟨h1, h2⟩ := hNVok x hx
          exact ⟨h1, by omega⟩
      · exact hBVok

lemma stateOK_mono (m : Nat) {n n' : Nat} (h : n ≤ n') (s : SpanState)
    (hok : StateOK m n s) : StateOK m n' s := by
  obtain ⟨h1, h2, h3⟩ := hok
  refine ⟨h1, ?_, ?_⟩
  · intro p hp x hx
    obtain ⟨a1, a2⟩ := h2 p hp x hx
    exact ⟨a1, by omega⟩
  · intro x hx
    obtain ⟨a1, a2⟩ := h3 x hx
    exact ⟨a1, by omega⟩

lemma forRevE_eq (query : List A) (n : Nat) (a : A) :
    ∀ j, j ≤ query.length → ∀ s, StateOK query.length (n + 1) s →
      forRevE (matchStepE query n a) j s = some (forRev (matchStep query n a) j s) ∧
      StateOK query.length (n + 1) (forRev (matchStep query n a) j s) := by
  intro j
  induction j with
  | zero =>
    intro _ s hok
    exact ⟨rfl, hok⟩
  | succ j ih =>
    intro hj s hok
    obtain ⟨h1, h2⟩ := matchStepE_eq query n a j s (by omega) hok
    obtain ⟨h3, h4⟩ := ih (by omega) (matchStep query n a j s) h2
    constructor
    · show (matchStepE query n a j s) >>= (forRevE (matchStepE query n a) j) = _
      rw [h1]
      show forRevE (matchStepE query n a) j (matchStep query n a j s) = _
      rw [h3]
      rfl
    · exact h4

lemma foldE_eq (query : List A) :
    ∀ (l : List A) (i : Nat) (s : SpanState), StateOK query.length i s →
      List.foldlM (fun s (p : Nat × A) => forRevE (matchStepE query p.1 p.2) query.length s)
          s (List.enumFrom i l) =
        some (List.foldl (bodyStep query) s (List.enumFrom i l)) ∧
      StateOK query.length (i + l.length)
        (List.foldl (bodyStep query) s (List.enumFrom i l)) := by
  intro l
  induction l with
  | nil =>
    intro i s hok
    exact ⟨rfl, by simpa using hok⟩
  | cons x l ih =>
    intro i s hok
    have hok' : StateOK query.length (i + 1) s := stateOK_mono query.length (by omega) s hok
    obtain ⟨h1, h2⟩ := forRevE_eq query i x query.length le_rfl s hok'
    obtain ⟨h3, h4⟩ := ih (i + 1) (forRev (matchStep query i x) query.length s) h2
    rw [List.enumFrom_cons, List.foldlM_cons, List.foldl_cons]
    constructor
    · show (forRevE (matchStepE query i x) query.length s) >>= _ = _
      rw [h1]
      show List.foldlM _ (forRev (matchStep query i x) query.length s) _ = _
      rw [h3]
      rfl
    · have h5 : i + 1 + l.length ≤ i + (x :: l).length := by
        rw [List.length_cons]
        omega
      exact stateOK_mono query.length h5 _ h4

/-- Claim C7: `span` is total and safe.  The checked run `spanE`, in which
every indexing operation and every usize subtraction is guarded and any
out-of-bounds access or underflow aborts with `none`, always succeeds and
returns exactly the value of `span`: no check ever fails, for histories and
queries of any lengths. -/
theorem spanE_eq_span (query history : List A) :
    spanE query history = some (span query history) := by
  unfold spanE span
  by_cases hh : history.isEmpty = true
  · rw [if_pos hh, if_pos hh]
  · rw [if_neg hh, if_neg hh]
    by_cases hq : query.isEmpty = true
    · rw [if_pos hq, if_pos hq]
    · rw [if_neg hq, if_neg hq]
      have hok0 : StateOK query.length 0 ⟨query.map fun _ => none, none⟩ := by
        refine ⟨by rw [List.length_map], ?_, ?_⟩
        · intro p hp x hx
          obtain ⟨q0, _, hq0⟩ := List.mem_map.mp hp
          rw [← hq0] at hx
          simp at hx
        · intro x hx
          simp at hx
      obtain ⟨h1, h2⟩ := foldE_eq query history 0 ⟨query.map fun _ => none, none⟩ hok0
      rw [show history.enum = List.enumFrom 0 history from rfl, h1]
      rfl

/-! ### The verified properties of `minspan::span` -/

lemma span_nil_history (query : List A) : span query ([] : List A) = none := rfl

lemma span_nil_query (history : List A) (hh : history ≠ []) :
    span ([] : List A) history = some (0, 0) := by
  unfold span
  rw [if_neg (fun hcon => hh (List.isEmpty_iff.mp hcon))]
  rfl

lemma span_main (query history : List A) (hq : query ≠ []) (hh : history ≠ [])
    (x : Nat × Nat) (hx : span query history = some x) :
    x ∈ offers query history history.length ∧
    (∀ c ∈ offers query history history.length, x.2 - x.1 ≤ c.2 - c.1) ∧
    (∀ c ∈ offers query history history.length, x.2 - x.1 = c.2 - c.1 → x.2 ≤ c.2) := by
  rw [span_eq_spanModel] at hx
  unfold spanModel at hx
  rw [if_neg (fun hcon => hh (List.isEmpty_iff.mp hcon)),
    if_neg (fun hcon => hq (List.isEmpty_iff.mp hcon))] at hx
  cases hof : offers query history history.length with
  | nil =>
    rw [hof] at hx
    simp at hx
  | cons c l =>
    rw [hof] at hx
    have hpw := offers_pairwise query history history.length
    rw [hof] at hpw
    rw [show List.foldl bestUpdate none (c :: l) = List.foldl bestUpdate (some c) l
      from rfl] at hx
    obtain ⟨y, hy, hmem, hle, hall, heqc, hfirst⟩ :=
      foldl_bestUpdate_spec l c (List.pairwise_cons.mp hpw).1 (List.pairwise_cons.mp hpw).2
    rw [hy] at hx
    obtain rfl : y = x := Option.some.inj hx
    refine ⟨?_, ?_, ?_⟩
    · rcases hmem with h | h
      · rw [h]
        exact List.mem_cons_self c l
      · exact List.mem_cons_of_mem c h
    · intro d hd
      rcases List.mem_cons.mp hd with h | hd'
      · subst h
        exact hle
      · exact hall d hd'
    · intro d hd hdeq
      rcases List.mem_cons.mp hd with h | hd'
      · subst h
        rw [heqc hdeq]
      · exact hfirst d hd' hdeq

/-- Claim C1: for every query and history, if `span query history` returns
`some (f, t)` then `f ≤ t`, `t < history.length`, and `query` is a
subsequence of the inclusive window `history[f..=t]`. -/
theorem span_validity (query history : List A) (f t : Nat)
    (h : span query history = some (f, t)) :
    f ≤ t ∧ t < history.length ∧ query.Sublist (slice history f t) := by
  by_cases hh : history = []
  · subst hh
    rw [span_nil_history query] at h
    cases h
  · by_cases hq : query = []
    · subst hq
      rw [span_nil_query history hh] at h
      obtain ⟨rfl, rfl⟩ : 0 = f ∧ 0 = t := by
        have h2 := Option.some.inj h
        rw [Prod.mk.injEq] at h2
        exact h2
      exact ⟨le_rfl, List.length_pos.mpr hh, List.nil_sublist _⟩
    · obtain ⟨hmem, _, _⟩ := span_main query history hq hh (f, t) h
      obtain ⟨h1, h2, _, _, h5⟩ := offers_sound query history hq history.length (f, t) hmem
      exact ⟨h1, h2, h5⟩

/-- Claim C1 witness: at `query = [3]`, `history = [3]` the result is
`some (0, 0)` and the three conclusions hold. -/
theorem span_validity_witness :
    0 ≤ 0 ∧ 0 < ([3] : List Nat).length ∧
      ([3] : List Nat).Sublist (slice ([3] : List Nat) 0 0) :=
  span_validity [3] [3] 0 0 (by decide)

/-- Claim C2: for every query and history, if `span query history` returns
`some (f, t)` then no window `(g, u)` with `g ≤ u < history.length` and
`u - g < t - f` contains `query` as a subsequence. -/
theorem span_minimality (query history : List A) (f t : Nat)
    (h : span query history = some (f, t)) :
    ∀ g u, g ≤ u → u < history.length → u - g < t - f →
      ¬ query.Sublist (slice history g u) := by
  intro g u hgu hu hlen hsub
  by_cases hh : history = []
  · subst hh
    simp at hu
  · by_cases hq : query = []
    · subst hq
      rw [span_nil_query history hh] at h
      obtain ⟨rfl, rfl⟩ : 0 = f ∧ 0 = t := by
        have h2 := Option.some.inj h
        rw [Prod.mk.injEq] at h2
        exact h2
      omega
    · obtain ⟨_, hmin, _⟩ := span_main query history hq hh (f, t) h
      obtain ⟨s, e, hoff, hgs, heu⟩ := offers_complete query history hq g u hu hsub
      have hoff' : (s, e) ∈ offers query history history.length :=
        offers_subset query history (u + 1) history.length (by omega) (s, e) hoff
      have h1 := hmin (s, e) hoff'
      have h2 := (offers_sound query history hq history.length (s, e) hoff').1
      simp only at h1 h2
      omega

/-- Claim C2 witness: at `query = [1, 3]`, `history = [1, 2, 3]` the result is
`some (0, 2)`, and the strictly shorter window `(0, 1)` does not contain the
query. -/
theorem span_minimality_witness :
    ¬ ([1, 3] : List Nat).Sublist (slice ([1, 2, 3] : List Nat) 0 1) :=
  span_minimality [1, 3] [1, 2, 3] 0 2 (by decide) 0 1 (by decide) (by decide) (by decide)

/-- Claim C3: for every non-empty query and every history, if `query` is a
subsequence of `history` then `span query history` returns a result,
never `none`. -/
theorem span_completeness (query history : List A) (hq : query ≠ [])
    (hsub : query.Sublist history) :
    ∃ f t, span query history = some (f, t) := by
  have hh : history ≠ [] := by
    intro hcon
    subst hcon
    exact hq (List.eq_nil_of_sublist_nil hsub)
  have hlen : 0 < history.length := List.length_pos.mpr hh
  have hslice : slice history 0 (history.length - 1) = history := by
    unfold slice
    rw [List.drop_zero, show history.length - 1 + 1 - 0 = history.length by omega,
      List.take_length]
  obtain ⟨s, e, hoff, _, _⟩ := offers_complete query history hq 0 (history.length - 1)
    (by omega) (by rw [hslice]; exact hsub)
  have hoff' : (s, e) ∈ offers query history history.length :=
    offers_subset query history (history.length - 1 + 1) history.length (by omega) _ hoff
  rw [span_eq_spanModel]
  unfold spanModel
  rw [if_neg (fun hcon => hh (List.isEmpty_iff.mp hcon)),
    if_neg (fun hcon => hq (List.isEmpty_iff.mp hcon))]
  cases hof : offers query history history.length with
  | nil =>
    rw [hof] at hoff'
    cases hoff'
  | cons c l =>
    obtain ⟨x, hx⟩ := foldl_bestUpdate_some l c
    refine ⟨x.1, x.2, ?_⟩
    rw [show List.foldl bestUpdate none (c :: l) = List.foldl bestUpdate (some c) l
      from rfl, hx]

/-- Claim C3 witness: `[2]` is a subsequence of `[1, 2]`, and `span` finds it. -/
theorem span_completeness_witness :
    ∃ f t, span ([2] : List Nat) [1, 2] = some (f, t) :=
  span_completeness [2] [1, 2] (by decide) (by decide)

/-- Claim C4: for every non-empty query and every history, if `span` returns
`none` then `query` is genuinely not a subsequence of `history`. -/
theorem span_negative (query history : List A) (hq : query ≠ [])
    (h : span query history = none) : ¬ query.Sublist history := by
  intro hsub
  obtain ⟨f, t, hft⟩ := span_completeness query history hq hsub
  rw [h] at hft
  cases hft

/-- Claim C4 witness: `span [2] [1]` is `none` and indeed `[2]` is not a
subsequence of `[1]`. -/
theorem span_negative_witness : ¬ ([2] : List Nat).Sublist [1] :=
  span_negative [2] [1] (by decide) (by decide)

/-- Claim C5 counterexample: on the empty history the function returns `none`
before the empty-query case is ever examined, so `span [] []` is not
`some (0, 0)` as the claim states. -/
theorem span_empty_query_counterexample :
    ¬ span ([] : List Nat) ([] : List Nat) = some (0, 0) := by decide

/-- Claim C5 amended: for every NON-EMPTY history, if the query is empty then
`span` returns `some (0, 0)`; on the empty history it returns `none` because
the empty-history check comes first. -/
theorem span_empty_query (history : List A) (hh : history ≠ []) :
    span ([] : List A) history = some (0, 0) :=
  span_nil_query history hh

/-- Claim C5 (amended) witness: the empty query on the history `[5]`. -/
theorem span_empty_query_witness : span ([] : List Nat) [5] = some (0, 0) :=
  span_empty_query [5] (by decide)

/-- Claim C6: tie-break policy.  If `span query history` returns `some (f, t)`
then among all windows containing the query whose length is at most the
returned one — in particular all minimal-length windows — the returned window
has the smallest end index: it is the candidate discovered first in the
left-to-right scan, and an equally long later candidate never replaces it. -/
theorem span_tiebreak (query history : List A) (f t : Nat)
    (h : span query history = some (f, t)) :
    ∀ g u, g ≤ u → u < history.length → query.Sublist (slice history g u) →
      u - g ≤ t - f → t ≤ u := by
  intro g u hgu hu hsub hshort
  by_cases hh : history = []
  · subst hh
    simp at hu
  · by_cases hq : query = []
    · subst hq
      rw [span_nil_query history hh] at h
      obtain ⟨rfl, rfl⟩ : 0 = f ∧ 0 = t := by
        have h2 := Option.some.inj h
        rw [Prod.mk.injEq] at h2
        exact h2
      omega
    · obtain ⟨_, hmin, hfirst⟩ := span_main query history hq hh (f, t) h
      obtain ⟨s, e, hoff, hgs, heu⟩ := offers_complete query history hq g u hu hsub
      have hoff' : (s, e) ∈ offers query history history.length :=
        offers_subset query history (u + 1) history.length (by omega) (s, e) hoff
      have h1 := hmin (s, e) hoff'
      have h2 := (offers_sound query history hq history.length (s, e) hoff').1
      simp only at h1 h2
      have h3 := hfirst (s, e) hoff' (by simp only; omega)
      simp only at h3
      omega

/-- Claim C6 witness: `query = [1]`, `history = [1, 1]` has the two
minimal-length windows `(0, 0)` and `(1, 1)`; `span` returns `(0, 0)` and its
end `0` is at most the end `1` of the later window. -/
theorem span_tiebreak_witness : 0 ≤ 1 :=
  span_tiebreak [1] ([1, 1] : List Nat) 0 0 (by decide) 1 1 (by decide) (by decide)
    (by decide) (by decide)

/-- Claim C8: on `query = "aba"` and `history = "abababa"` the returned span
has window length `to - from + 1 = 3`. -/
theorem span_aba_example :
    ∃ f t, span (['a', 'b', 'a'] : List Char)
        ['a', 'b', 'a', 'b', 'a', 'b', 'a'] = some (f, t) ∧ t - f + 1 = 3 :=
  ⟨0, 2, by decide, by decide⟩

/-- Claim C9: for every non-empty query, a returned span is anchored at actual
matches of the query's endpoints: `history[f]` is the first element of the
query and `history[t]` its last element. -/
theorem span_endpoints (query history : List A) (f t : Nat) (hq : query ≠ [])
    (h : span query history = some (f, t)) :
    history[f]? = query[0]? ∧ history[t]? = query[query.length - 1]? := by
  by_cases hh : history = []
  · subst hh
    rw [span_nil_history query] at h
    cases h
  · obtain ⟨hmem, _, _⟩ := span_main query history hq hh (f, t) h
    have h1 := offers_sound query history hq history.length (f, t) hmem
    exact ⟨h1.2.2.1, h1.2.2.2.1⟩

/-- Claim C9 witness: at `query = [1, 2]`, `history = [0, 1, 2]` the span is
`(1, 2)` and the endpoints match the first and last query elements. -/
theorem span_endpoints_witness :
    ([0, 1, 2] : List Nat)[1]? = ([1, 2] : List Nat)[0]? ∧
      ([0, 1, 2] : List Nat)[2]? = ([1, 2] : List Nat)[([1, 2] : List Nat).length - 1]? :=
  span_endpoints [1, 2] [0, 1, 2] 1 2 (by decide) (by decide)

/-- Claim C10: on the empty history `span` returns `none` for every query,
including the empty query, because the empty-history check (lib.rs line 10)
precedes the empty-query check (line 16). -/
theorem span_empty_history (query : List A) : span query ([] : List A) = none :=
  span_nil_history query

end minspan
